import Mathlib

/-!
Verification of the pyfoot actor/world framework (`pyfoot/main.py`).

The definitions below are a shallow embedding of the Python source.
Geometry is modelled exactly (pygame rectangles as integer boxes); pixel
surfaces of the host graphics library are modelled by their sizes only,
and a blit is accounted for by the rectangle it touches, which is the
only information the damage-tracking algorithm consumes.  Machine reals
of the host library do not occur in the modelled code paths; angles are
taken as integers.
-/

namespace Pyfoot

/-! ## pygame.Rect geometry

A rectangle is a top-left corner and a size, all integers, exactly as a
pygame rectangle.  A point `p` lies in `r` iff `r.x ≤ p.1 < r.x + r.w`
and `r.y ≤ p.2 < r.y + r.h`, so rectangles with non-positive width or
height contain no points. -/

structure Rect where
  x : Int
  y : Int
  w : Int
  h : Int
deriving DecidableEq, Repr

def Rect.topleft (r : Rect) : Int × Int := (r.x, r.y)

def Rect.size (r : Rect) : Int × Int := (r.w, r.h)

def Rect.memP (r : Rect) (p : Int × Int) : Prop :=
  r.x ≤ p.1 ∧ p.1 < r.x + r.w ∧ r.y ≤ p.2 ∧ p.2 < r.y + r.h

instance (r : Rect) (p : Int × Int) : Decidable (r.memP p) := by
  unfold Rect.memP; infer_instance

/-- `pygame.Rect.clip`: the intersection of the two rectangles if they
overlap, otherwise a zero-size rectangle placed at the top-left of the
first argument. -/
def Rect.clip (a b : Rect) : Rect :=
  if max a.x b.x < min (a.x + a.w) (b.x + b.w) ∧
      max a.y b.y < min (a.y + a.h) (b.y + b.h) then
    ⟨max a.x b.x, max a.y b.y,
      min (a.x + a.w) (b.x + b.w) - max a.x b.x,
      min (a.y + a.h) (b.y + b.h) - max a.y b.y⟩
  else
    ⟨a.x, a.y, 0, 0⟩

/-- `pygame.Rect.colliderect`: true when the two rectangles overlap in a
region of positive area (zero-size rectangles never collide). -/
def Rect.colliderect (a b : Rect) : Bool :=
  decide (a.x < b.x + b.w) && decide (b.x < a.x + a.w) &&
  decide (a.y < b.y + b.h) && decide (b.y < a.y + a.h)

/-! ## Image state

`Image` owns a pygame surface; for the claims only its size and the
dirty flag `_requires_update` matter.  Every drawing primitive of the
class sets the flag; it is cleared by `Actor._update` once composited. -/

structure ImageSt where
  w : Int
  h : Int
  requires_update : Bool
deriving DecidableEq, Repr

/-! ## Image.from_path (file loading)

The filesystem and the image decoder are external collaborators; a path
is modelled by what `pathlib` reports about it: existence, regular-file
status, and its suffix (`Path.suffix`, which includes the leading dot
and is empty for extension-less names — the source compares
`p.suffix[1:]`, i.e. the suffix with its first character dropped,
against the supported extensions). -/

structure PathInfo where
  pathExists : Bool
  isFile : Bool
  suffix : String
deriving DecidableEq, Repr

/-- Outcome of `Image.from_path`: a successfully decoded image, or one
of the three failure modes the source raises immediately
(`NotImplementedError` for an unsupported extension,
`FileNotFoundError` for an absent path, and `FileNotFoundError` with
the folder message for a non-file path). -/
inductive FromPathResult where
  | ok : FromPathResult
  | unsupported : FromPathResult
  | notFound : FromPathResult
  | notAFile : FromPathResult
deriving DecidableEq, Repr

/-- `Image.from_path`, modelled at the path-metadata level.  The source
never retries: each branch returns or raises at once. -/
def Image.from_path (p : PathInfo) : FromPathResult :=
  if p.pathExists then
    if p.isFile && decide (p.suffix.drop 1 ∈ ["jpg", "jpeg", "png", "gif"]) then
      .ok
    else if p.isFile then
      .unsupported
    else
      .notAFile
  else
    .notFound

/-! ## Rotation normalization (Actor.rotation setter)

The setter runs `while angle < 0: angle += 360` followed by
`while angle > 360: angle -= 360`, then assigns and marks the image
dirty only when the normalized angle differs from the stored one. -/

def addLoop (a : Int) : Int :=
  if a < 0 then addLoop (a + 360) else a
termination_by (-a).toNat
decreasing_by omega

def subLoop (a : Int) : Int :=
  if a > 360 then subLoop (a - 360) else a
termination_by a.toNat
decreasing_by omega

def normAngle (a : Int) : Int := subLoop (addLoop a)

/-! ## Actor state

Fields mirror the attributes the claims touch: grid position, centering
offsets, rotation, the owned image, the size of the cached rotated
surface `_rendered_img`, the previous screen rectangle `_prev_rect`,
and the click latch `trigger_on_relief`. -/

structure ActorSt where
  x : Int
  y : Int
  x_offset : Int
  y_offset : Int
  rotation : Int
  img : ImageSt
  renderedW : Int
  renderedH : Int
  prev_rect : Option Rect
  trigger_on_relief : Bool
deriving DecidableEq, Repr

/-- The `Actor.rotation` property setter. -/
def Actor.set_rotation (a : ActorSt) (angle : Int) : ActorSt :=
  if a.rotation ≠ normAngle angle then
    { a with rotation := normAngle angle
             img := { a.img with requires_update := true } }
  else
    a

/-! ## World state

`World.__init__` stores `height * cell_size` and `width * cell_size`
using the raw constructor argument, then clamps `cell_size` itself with
`max(cell_size, 1)`; the default background generated afterwards is an
image of exactly the stored width and height, as is the display
surface. -/

structure WorldSt where
  width : Int
  height : Int
  cell_size : Int
  bgW : Int
  bgH : Int
deriving DecidableEq, Repr

/-- `World.__init__` (dimension bookkeeping; the display and default
background both take the stored pixel dimensions). -/
def World.init (width height cell_size : Int) : WorldSt :=
  { height := height * cell_size
    width := width * cell_size
    cell_size := max cell_size 1
    bgW := width * cell_size
    bgH := height * cell_size }

def WorldSt.bgRect (w : WorldSt) : Rect := ⟨0, 0, w.bgW, w.bgH⟩

def WorldSt.dispRect (w : WorldSt) : Rect := ⟨0, 0, w.width, w.height⟩

/-- The rectangle a `surface.blit(src, pos)` on the display reports as
affected: the source rectangle placed at `pos`, clipped to the display
bounds. -/
def blitRect (w : WorldSt) (size : Int × Int) (pos : Int × Int) : Rect :=
  Rect.clip ⟨pos.1, pos.2, size.1, size.2⟩ w.dispRect

/-! ## Actor._update (the damage-aware repaint)

Surfaces are modelled by their sizes; `pygame.transform.rotate` is an
external collaborator and enters the model as a size function `rot`
mapping a surface size and an angle to the rotated size.  A blit is
accounted for by the rectangle it reports. -/

/-- Size of the surface produced by rotating a `w × h` surface by the
given angle. -/
abbrev RotSize := Int → Int → Int → Int × Int

/-- `Actor.__render`: recompute the cached rotated surface from the
current image and rotation. -/
def Actor.render (rot : RotSize) (a : ActorSt) : ActorSt :=
  { a with renderedW := (rot a.img.w a.img.h a.rotation).1
           renderedH := (rot a.img.w a.img.h a.rotation).2 }

/-- `Actor.to_image_pos`: world pixel coordinate to a coordinate on the
image of the actor. -/
def Actor.to_image_pos (cs : Int) (a : ActorSt) (pos : Int × Int) : Int × Int :=
  (pos.1 - a.x * cs, pos.2 - a.y * cs)

/-- The rectangle of the cached rotated surface of an actor at its
current position, used for the overlap scan in `_update`. -/
def Actor.renderedRect (cs : Int) (o : ActorSt) : Rect :=
  ⟨o.x * cs, o.y * cs, o.renderedW, o.renderedH⟩

/-- The inner `get_render_info` helper of `_update`: for a sibling
actor overlapping the damage rectangle `rect`, the sub-rectangle of the
sibling that must be recomposited (its size) and the screen position it
is blitted to.  The source also stores a previous rectangle on a
sibling that has none — the stored value is exactly the image rectangle
used here, so the per-call accounting is unchanged — and shifts the
sub-rectangle by `to_image_pos` to select the pixels, which does not
change the touched screen rectangle. -/
def Actor.get_render_info (cs : Int) (rect : Rect) (o : ActorSt) :
    (Int × Int) × (Int × Int) :=
  let pr := o.prev_rect.getD ⟨o.x * cs, o.y * cs, o.img.w, o.img.h⟩
  let sub := rect.clip pr
  (sub.size, sub.topleft)

/-- Body of the `for rect in all_rects` loop of `_update`.  The state
carries the collected touched rectangles and the staged recomposites of
the before and after sibling groups; `rect` is clipped to the
background, skipped when the clip is empty, the background restore blit
is recorded, and unless this actor is alone every sibling whose
rendered rectangle collides with the restored rectangle is staged. -/
def updateStep (w : WorldSt) (cs : Int) (lone : Bool)
    (render_before render_after : List ActorSt)
    (st : List Rect ×
      List ((Int × Int) × (Int × Int)) × List ((Int × Int) × (Int × Int)))
    (r : Rect) :
    List Rect ×
      List ((Int × Int) × (Int × Int)) × List ((Int × Int) × (Int × Int)) :=
  if (r.clip w.bgRect).size = ((0 : Int), (0 : Int)) then st
  else if lone then
    (st.1 ++ [blitRect w (r.clip w.bgRect).size (r.clip w.bgRect).topleft],
      st.2.1, st.2.2)
  else
    (st.1 ++ [blitRect w (r.clip w.bgRect).size (r.clip w.bgRect).topleft],
      st.2.1 ++ ((render_before.filter (fun o =>
        (blitRect w (r.clip w.bgRect).size
          (r.clip w.bgRect).topleft).colliderect
            (Actor.renderedRect cs o))).map
        (Actor.get_render_info cs
          (blitRect w (r.clip w.bgRect).size (r.clip w.bgRect).topleft))),
      st.2.2 ++ ((render_after.filter (fun o =>
        (blitRect w (r.clip w.bgRect).size
          (r.clip w.bgRect).topleft).colliderect
            (Actor.renderedRect cs o))).map
        (Actor.get_render_info cs
          (blitRect w (r.clip w.bgRect).size (r.clip w.bgRect).topleft))))

/-- `Actor._update`.  `render_before` and `render_after` are the
world's flattened object list split around this actor
(`other_objs[:self_i]` and `other_objs[self_i + 1:]`); both are empty
exactly when this actor is the only object, in which case the source
skips the sibling recompositing (`len(other_objs) > 1`).  Returns the
new actor state and the list of touched rectangles, or `none` when no
repaint is needed. -/
def Actor._update (rot : RotSize) (w : WorldSt)
    (render_before render_after : List ActorSt) (a : ActorSt) :
    ActorSt × Option (List Rect) :=
  let cs := w.cell_size
  let new_pos : Int × Int := (a.x * cs + a.x_offset, a.y * cs + a.y_offset)
  let needs : Bool := a.img.requires_update ||
    (match a.prev_rect with
     | none => true
     | some pr => decide (new_pos ≠ pr.topleft))
  if needs then
    let a1 := Actor.render rot a
    let a2 := { a1 with img := { a1.img with requires_update := false } }
    let new_rect : Rect := ⟨new_pos.1, new_pos.2, a2.renderedW, a2.renderedH⟩
    let all_rects : List Rect :=
      match a2.prev_rect with
      | some pr => [new_rect, pr]
      | none => [new_rect]
    let lone : Bool := render_before.isEmpty && render_after.isEmpty
    let res := all_rects.foldl
      (updateStep w cs lone render_before render_after) ([], [], [])
    let a3 := { a2 with prev_rect := some new_rect }
    let areas := res.1
      ++ res.2.1.map (fun ri => blitRect w ri.1 ri.2)
      ++ [blitRect w (a3.renderedW, a3.renderedH) new_rect.topleft]
      ++ res.2.2.map (fun ri => blitRect w ri.1 ri.2)
    (a3, some areas)
  else
    (a, none)

/-! ## Actor.clicked (click latch)

The externally polled mouse state of a frame is a pair of booleans:
whether the mouse is over the actor and whether the relevant button is
pressed. -/

/-- One call of `Actor.clicked` with the default `mouse_button=None`:
any press arms the latch; the final branch leaves the latch as it is. -/
def Actor.clicked (a : ActorSt) (over pressed : Bool) : ActorSt × Bool :=
  if over && pressed then ({ a with trigger_on_relief := true }, false)
  else if a.trigger_on_relief && over then
    ({ a with trigger_on_relief := false }, true)
  else (a, false)

/-- One call of `Actor.clicked` with an explicit `mouse_button`
argument: identical except that the final branch clears the latch. -/
def Actor.clicked_button (a : ActorSt) (over pressed : Bool) : ActorSt × Bool :=
  if over && pressed then ({ a with trigger_on_relief := true }, false)
  else if a.trigger_on_relief && over then
    ({ a with trigger_on_relief := false }, true)
  else ({ a with trigger_on_relief := false }, false)

/-- Run `clicked()` once per frame over a sequence of frames — the way
the frame loop polls it — collecting the reported clicks in order. -/
def runClicked (a : ActorSt) : List (Bool × Bool) → ActorSt × List Bool
  | [] => (a, [])
  | f :: fs =>
    ((runClicked (Actor.clicked a f.1 f.2).1 fs).1,
      (Actor.clicked a f.1 f.2).2 ::
        (runClicked (Actor.clicked a f.1 f.2).1 fs).2)

/-- Run `clicked(button)` once per frame over a sequence of frames. -/
def runClickedButton (a : ActorSt) : List (Bool × Bool) → ActorSt × List Bool
  | [] => (a, [])
  | f :: fs =>
    ((runClickedButton (Actor.clicked_button a f.1 f.2).1 fs).1,
      (Actor.clicked_button a f.1 f.2).2 ::
        (runClickedButton (Actor.clicked_button a f.1 f.2).1 fs).2)

/-! ## World registry (add / remove / set_paint_order / get_objects)

The registry is an insertion-ordered dictionary from runtime actor type
to a set of actors: a list of buckets.  An actor is modelled by its
runtime type and an identity; Python sets compare default actors by
identity, and a bucket list holds the members in one fixed iteration
order, without duplicates by construction. -/

structure Obj where
  ty : Nat
  oid : Nat
deriving DecidableEq, Repr

abbrev Registry := List (Nat × List Obj)

def keysOf (r : Registry) : List Nat := r.map Prod.fst

/-- Python `set.add` on a bucket. -/
def bucketAdd (s : List Obj) (a : Obj) : List Obj :=
  if a ∈ s then s else s ++ [a]

/-- One step of `World.add`:
`self.actors.setdefault(type(act), set()).add(act)` — insert into the
bucket of the runtime type, creating the bucket at the end of the
ordering when the type was never seen. -/
def World.add1 (r : Registry) (a : Obj) : Registry :=
  if r.any (fun b => b.1 = a.ty) then
    r.map (fun b => if b.1 = a.ty then (b.1, bucketAdd b.2 a) else b)
  else
    r ++ [(a.ty, [a])]

def World.add (r : Registry) (objs : List Obj) : Registry :=
  objs.foldl World.add1 r

/-- One step of `World.remove`:
`self.actors.get(type(act), set()).discard(act)` — discard from the
bucket of the runtime type when that bucket exists; a missing bucket
means discarding from a fresh temporary set, which changes nothing and
raises nothing. -/
def World.remove1 (r : Registry) (a : Obj) : Registry :=
  r.map (fun b => if b.1 = a.ty then (b.1, b.2.erase a) else b)

def World.remove (r : Registry) (objs : List Obj) : Registry :=
  objs.foldl World.remove1 r

/-- The value `order_dict` maps a type to: the position of its last
occurrence in the argument list, since later assignments of the dict
comprehension overwrite earlier ones. -/
def lastIdx (ts : List Nat) (t : Nat) : Option Nat :=
  (((ts.enum).filter (fun p => p.2 = t)).map (fun p => p.1)).getLast?

/-- `order_dict.get(key, -1)`: the sort key of a bucket. -/
def orderKey (ts : List Nat) (t : Nat) : Int :=
  match lastIdx ts t with
  | some k => (k : Int)
  | none => -1

/-- Iteration order of `order_dict.keys()`: first-occurrence order of
the argument types. -/
def firstOccs (ts : List Nat) : List Nat :=
  ts.foldl (fun acc t => if t ∈ acc then acc else acc ++ [t]) []

/-- `self.actors.setdefault(key, set())` for a type key. -/
def setdefaultKey (r : Registry) (t : Nat) : Registry :=
  if r.any (fun b => b.1 = t) then r else r ++ [(t, [])]

/-- Stable insertion by key: the element is placed after every element
whose key is not greater.  Folding it left models Python `sorted`,
which is guaranteed stable. -/
def insertK {α : Type} (key : α → Int) (x : α) : List α → List α
  | [] => [x]
  | y :: ys => if key x < key y then x :: y :: ys else y :: insertK key x ys

/-- Stable sort by key (the behaviour contract of Python `sorted`). -/
def sortK {α : Type} (key : α → Int) (l : List α) : List α :=
  l.foldl (fun acc x => insertK key x acc) []

/-- `World.set_paint_order`: give every mentioned type a bucket, then
stable-sort the buckets by last-occurrence position in the argument
list, unmentioned types keeping key `-1` (drawn first). -/
def World.set_paint_order (types : List Nat) (r : Registry) : Registry :=
  sortK (fun b => orderKey types b.1) ((firstOccs types).foldl setdefaultKey r)

/-- `World.get_objects` with the base `Actor` class: all buckets
flattened in paint order. -/
def World.get_objects (r : Registry) : List Obj :=
  (r.map Prod.snd).flatten

/-- The registry operations a program can perform on a world. -/
inductive WOp where
  | add : List Obj → WOp
  | remove : List Obj → WOp
  | paint : List Nat → WOp

def applyOp (r : Registry) : WOp → Registry
  | .add objs => World.add r objs
  | .remove objs => World.remove r objs
  | .paint ts => World.set_paint_order ts r

def applyOps (ops : List WOp) : Registry :=
  ops.foldl applyOp []

/-- The registry invariant: buckets hold only actors of their key type,
no type has two buckets, and no bucket holds an actor twice. -/
def RegInv (r : Registry) : Prop :=
  (∀ b ∈ r, ∀ a ∈ b.2, a.ty = b.1) ∧ (keysOf r).Nodup ∧ ∀ b ∈ r, b.2.Nodup

/-! ## Sample states used by concrete counterexamples and witnesses -/

def actor0 : ActorSt :=
  { x := 0, y := 0, x_offset := 0, y_offset := 0, rotation := 0
    img := ⟨10, 10, false⟩, renderedW := 10, renderedH := 10
    prev_rect := none, trigger_on_relief := false }

def rotId : RotSize := fun w h _ => (w, h)

def world200 : WorldSt := World.init 200 200 1

def actorMoved : ActorSt :=
  { x := 60, y := 50, x_offset := 0, y_offset := 0, rotation := 0
    img := ⟨10, 10, false⟩, renderedW := 10, renderedH := 10
    prev_rect := some ⟨50, 50, 10, 10⟩, trigger_on_relief := false }

def actorStill : ActorSt :=
  { x := 50, y := 50, x_offset := 0, y_offset := 0, rotation := 0
    img := ⟨10, 10, false⟩, renderedW := 10, renderedH := 10
    prev_rect := some ⟨50, 50, 10, 10⟩, trigger_on_relief := false }


/-! # Claims -/

/-! ## Basic lemmas about the embedded primitives -/

theorem Rect.memP_clip (a b : Rect) (p : Int × Int) :
    (a.clip b).memP p ↔ a.memP p ∧ b.memP p := by
  unfold Rect.clip Rect.memP
  split
  next hx => dsimp only; omega
  next hx => dsimp only; rw [Decidable.not_and_iff_or_not] at hx
             rcases hx with hx | hx <;> omega

theorem Rect.clip_size_zero_iff (a b : Rect) :
    (a.clip b).size = ((0 : Int), (0 : Int)) ↔ ∀ p, ¬ (a.clip b).memP p := by
  unfold Rect.clip Rect.size Rect.memP
  split
  next hx =>
    dsimp only
    constructor
    · intro h; exfalso; rw [Prod.mk.injEq] at h; omega
    · intro h
      have := h (max a.x b.x, max a.y b.y)
      rw [Prod.mk.injEq]
      dsimp only at this
      omega
  next hx =>
    dsimp only
    constructor
    · intro _ p; omega
    · intro _; rfl

theorem addLoop_nonneg (a : Int) : 0 ≤ addLoop a := by
  unfold addLoop
  split
  · exact addLoop_nonneg (a + 360)
  · omega
termination_by (-a).toNat
decreasing_by omega

theorem subLoop_le (a : Int) : subLoop a ≤ 360 := by
  unfold subLoop
  split
  · exact subLoop_le (a - 360)
  · omega
termination_by a.toNat
decreasing_by omega

theorem subLoop_nonneg (a : Int) (h : 0 ≤ a) : 0 ≤ subLoop a := by
  unfold subLoop
  split
  · exact subLoop_nonneg (a - 360) (by omega)
  · omega
termination_by a.toNat
decreasing_by omega

theorem addLoop_of_nonneg (a : Int) (h : 0 ≤ a) : addLoop a = a := by
  unfold addLoop; omega

theorem subLoop_of_le (a : Int) (h : a ≤ 360) : subLoop a = a := by
  unfold subLoop; omega

theorem addLoop_step (a : Int) (h : a < 0) : addLoop a = addLoop (a + 360) := by
  conv_lhs => rw [addLoop]
  rw [if_pos h]

theorem subLoop_step (a : Int) (h : a > 360) : subLoop a = subLoop (a - 360) := by
  conv_lhs => rw [subLoop]
  rw [if_pos h]

theorem normAngle_370 : normAngle 370 = 10 := by
  unfold normAngle
  rw [addLoop_of_nonneg 370 (by norm_num), subLoop_step 370 (by norm_num)]
  norm_num
  exact subLoop_of_le 10 (by norm_num)

theorem normAngle_neg10 : normAngle (-10) = 350 := by
  unfold normAngle
  rw [addLoop_step (-10) (by norm_num)]
  norm_num
  rw [addLoop_of_nonneg 350 (by norm_num)]
  exact subLoop_of_le 350 (by norm_num)

theorem normAngle_360 : normAngle 360 = 360 := by
  unfold normAngle
  rw [addLoop_of_nonneg 360 (by norm_num)]
  exact subLoop_of_le 360 (by norm_num)

theorem normAngle_0 : normAngle 0 = 0 := by
  unfold normAngle
  rw [addLoop_of_nonneg 0 (by norm_num)]
  exact subLoop_of_le 0 (by norm_num)


/-- C7: `Image.from_path` returns an image exactly when the path
exists, is a regular file and its extension is one of jpg, jpeg, png,
gif; an existing regular file with another extension fails with the
unsupported-type error, an absent path with the not-found error, and an
existing non-file with the folder error.  The function is total: each
outcome is decided and surfaced at once, with no retry. -/
theorem from_path_cases (p : PathInfo) :
    (Image.from_path p = .ok ↔
      p.pathExists = true ∧ p.isFile = true ∧
        p.suffix.drop 1 ∈ ["jpg", "jpeg", "png", "gif"])
    ∧ (Image.from_path p = .unsupported ↔
      p.pathExists = true ∧ p.isFile = true ∧
        p.suffix.drop 1 ∉ ["jpg", "jpeg", "png", "gif"])
    ∧ (Image.from_path p = .notFound ↔ p.pathExists = false)
    ∧ (Image.from_path p = .notAFile ↔
      p.pathExists = true ∧ p.isFile = false) := by
  obtain ⟨e, f, s⟩ := p
  unfold Image.from_path
  cases e <;> cases f <;>
    by_cases hs : s.drop 1 ∈ ["jpg", "jpeg", "png", "gif"] <;>
    simp [hs]

/-- C5 counterexample: assigning the angle 360 stores 360, which is not
inside [0, 360) — the loop guard is strict (`while angle > 360`). -/
theorem rotation_normalization_cex :
    (Actor.set_rotation actor0 360).rotation = 360 ∧
      ¬ ((Actor.set_rotation actor0 360).rotation < 360) := by
  have h2 : (Actor.set_rotation actor0 360).rotation = 360 := by
    unfold Actor.set_rotation
    rw [normAngle_360]
    norm_num [actor0]
  exact ⟨h2, by rw [h2]; norm_num⟩

/-- C5 amended: the stored rotation always equals the normalized angle,
and the normalization lands in the closed interval [0, 360] — the
strict loop guard keeps a positive multiple of 360 at 360 instead of 0;
370 normalizes to 10 and -10 to 350 as claimed; and an assignment whose
normalized angle equals the current rotation leaves the actor — in
particular the dirty flag of its image — unchanged. -/
theorem rotation_normalization_amended :
    (∀ (a : ActorSt) (angle : Int),
        (Actor.set_rotation a angle).rotation = normAngle angle)
    ∧ (∀ angle : Int, 0 ≤ normAngle angle ∧ normAngle angle ≤ 360)
    ∧ normAngle 370 = 10 ∧ normAngle (-10) = 350 ∧ normAngle 360 = 360
    ∧ (∀ (a : ActorSt) (angle : Int),
        normAngle angle = a.rotation → Actor.set_rotation a angle = a) := by
  refine ⟨?_, ?_, ?_, ?_, ?_, ?_⟩
  · intro a angle
    unfold Actor.set_rotation
    split
    · rfl
    · omega
  · intro angle
    exact ⟨subLoop_nonneg _ (addLoop_nonneg _), subLoop_le _⟩
  · exact normAngle_370
  · exact normAngle_neg10
  · exact normAngle_360
  · intro a angle h
    unfold Actor.set_rotation
    rw [h]
    simp

/-- Witness for the amended C5 at a concrete input: assigning an angle
that normalizes to the current rotation changes nothing. -/
theorem rotation_normalization_amended_witness :
    normAngle 0 = actor0.rotation ∧ Actor.set_rotation actor0 0 = actor0 := by
  have h : normAngle 0 = actor0.rotation := by
    rw [normAngle_0]; rfl
  exact ⟨h, rotation_normalization_amended.2.2.2.2.2 actor0 0 h⟩

/-- C9 counterexample: a world constructed with cell_size 0 stores
pixel width 5 * 0 = 0, not 5 * max 0 1 = 5 — the dimensions are
multiplied by the raw constructor argument before the clamp. -/
theorem world_init_dims_cex :
    (World.init 5 4 0).width = 0 ∧ (World.init 5 4 0).height = 0 ∧
      (World.init 5 4 0).width ≠ 5 * max 0 1 ∧
      (World.init 5 4 0).cell_size = 1 := by
  decide

/-- C9 amended: the constructor stores width = w * c and
height = h * c using the raw cell_size argument c, and stores
cell_size = max c 1; only for c ≥ 1 do the stored dimensions agree with
the claimed w * max c 1 and h * max c 1. -/
theorem world_init_dims_amended :
    (∀ w h c : Int,
        (World.init w h c).width = w * c ∧
        (World.init w h c).height = h * c ∧
        (World.init w h c).cell_size = max c 1)
    ∧ (∀ w h c : Int, 1 ≤ c →
        (World.init w h c).width = w * max c 1 ∧
        (World.init w h c).height = h * max c 1) := by
  constructor
  · intro w h c
    exact ⟨rfl, rfl, rfl⟩
  · intro w h c hc
    have hm : max c 1 = c := by omega
    rw [hm]
    exact ⟨rfl, rfl⟩

/-- Witness for the amended C9 at a concrete input. -/
theorem world_init_dims_amended_witness :
    (1 : Int) ≤ 20 ∧ (World.init 10 8 20).width = 10 * max 20 1 ∧
      (World.init 10 8 20).height = 8 * max 20 1 :=
  ⟨by norm_num, world_init_dims_amended.2 10 8 20 (by norm_num)⟩

/-- C2: `_update` repaints — returns a rectangle list — exactly when
the image is marked dirty, or the actor was never drawn, or the newly
computed position differs from the top-left of the previous rectangle;
otherwise it returns no update and the actor state is unchanged, and
since no blit is issued the display is untouched. -/
theorem actor_update_trigger_iff (rot : RotSize) (w : WorldSt)
    (rb ra : List ActorSt) (a : ActorSt) :
    ((Actor._update rot w rb ra a).2.isSome ↔
      (a.img.requires_update = true ∨ a.prev_rect = none ∨
        ∃ pr, a.prev_rect = some pr ∧
          ((a.x * w.cell_size + a.x_offset,
            a.y * w.cell_size + a.y_offset) : Int × Int) ≠ pr.topleft))
    ∧ ((Actor._update rot w rb ra a).2 = none →
        (Actor._update rot w rb ra a).1 = a) := by
  unfold Actor._update
  cases hpr : a.prev_rect with
  | none =>
    cases hd : a.img.requires_update <;> simp [hpr, hd]
  | some pr =>
    cases hd : a.img.requires_update
    · by_cases hmv : ((a.x * w.cell_size + a.x_offset,
          a.y * w.cell_size + a.y_offset) : Int × Int) = pr.topleft
      · simp [hpr, hd, hmv]
      · simp [hpr, hd, hmv]
    · simp [hpr, hd]

/-- A clean actor — image not dirty, already drawn, previous top-left
equal to the computed position — is not repainted. -/
theorem update_none_of_clean (rot : RotSize) (w : WorldSt) (rb ra : List ActorSt)
    (a : ActorSt) (pr : Rect) (hd : a.img.requires_update = false)
    (hpr : a.prev_rect = some pr)
    (hx : pr.x = a.x * w.cell_size + a.x_offset)
    (hy : pr.y = a.y * w.cell_size + a.y_offset) :
    (Actor._update rot w rb ra a).2 = none := by
  unfold Actor._update
  simp [hpr, hd, hx, hy, Rect.topleft]

/-- C3: for an actor that has been drawn at least once, a second
`_update` with no intervening mutation returns no update: a completed
repaint clears the dirty flag and stores a previous rectangle whose
top-left is the freshly computed position, and a skipped repaint leaves
the state that already satisfied both conditions. -/
theorem actor_update_second_noop (rot : RotSize) (w : WorldSt)
    (rb ra : List ActorSt) (a : ActorSt) (h : a.prev_rect.isSome) :
    (Actor._update rot w rb ra (Actor._update rot w rb ra a).1).2 = none := by
  obtain ⟨pr, hpr⟩ := Option.isSome_iff_exists.mp h
  have key : (Actor._update rot w rb ra a).1.img.requires_update = false ∧
      (Actor._update rot w rb ra a).1.x = a.x ∧
      (Actor._update rot w rb ra a).1.y = a.y ∧
      (Actor._update rot w rb ra a).1.x_offset = a.x_offset ∧
      (Actor._update rot w rb ra a).1.y_offset = a.y_offset ∧
      ∃ pr', (Actor._update rot w rb ra a).1.prev_rect = some pr' ∧
        pr'.x = a.x * w.cell_size + a.x_offset ∧
        pr'.y = a.y * w.cell_size + a.y_offset := by
    unfold Actor._update
    simp only [hpr]
    split
    next hc =>
      exact ⟨rfl, rfl, rfl, rfl, rfl, _, rfl, rfl, rfl⟩
    next hc =>
      simp only [Bool.or_eq_true, decide_eq_true_eq, not_or,
        Bool.not_eq_true] at hc
      obtain ⟨h1, h2⟩ := hc
      rw [not_not, Rect.topleft, Prod.mk.injEq] at h2
      exact ⟨h1, rfl, rfl, rfl, rfl, pr, hpr, h2.1.symm, h2.2.symm⟩
  obtain ⟨k1, k2, k3, k4, k5, pr', hpr', hx', hy'⟩ := key
  exact update_none_of_clean rot w rb ra _ pr' k1 hpr'
    (by rw [k2, k4]; exact hx') (by rw [k3, k5]; exact hy')

/-- Witness for C3 at a concrete input: the moved 10 by 10 actor of the
end-to-end scenario, updated twice. -/
theorem actor_update_second_noop_witness :
    actorMoved.prev_rect.isSome = true ∧
      (Actor._update rotId world200 [] []
        (Actor._update rotId world200 [] [] actorMoved).1).2 = none :=
  ⟨rfl, actor_update_second_noop rotId world200 [] [] actorMoved rfl⟩

theorem Rect.eta (r : Rect) : (⟨r.x, r.y, r.w, r.h⟩ : Rect) = r := rfl

theorem memP_blitRect (w : WorldSt) (s pos : Int × Int) (p : Int × Int) :
    (blitRect w s pos).memP p ↔
      Rect.memP ⟨pos.1, pos.2, s.1, s.2⟩ p ∧ w.dispRect.memP p := by
  unfold blitRect
  rw [Rect.memP_clip]

theorem snd_updateStep_lone (w : WorldSt) (cs : Int) (rb ra : List ActorSt)
    (st : List Rect ×
      List ((Int × Int) × (Int × Int)) × List ((Int × Int) × (Int × Int)))
    (r : Rect) : (updateStep w cs true rb ra st r).2 = st.2 := by
  unfold updateStep
  split
  · rfl
  · rfl

/-- The rectangles collected by one loop iteration cover the points of
the incoming state plus the points of the iteration rectangle clipped
to the background and the display — also when the clipped rectangle is
empty and skipped, since it then has no points. -/
theorem exists_memP_updateStep (w : WorldSt) (cs : Int) (lone : Bool)
    (rb ra : List ActorSt)
    (st : List Rect ×
      List ((Int × Int) × (Int × Int)) × List ((Int × Int) × (Int × Int)))
    (r : Rect) (p : Int × Int) :
    (∃ x ∈ (updateStep w cs lone rb ra st r).1, x.memP p) ↔
      (∃ x ∈ st.1, x.memP p) ∨
        ((r.clip w.bgRect).memP p ∧ w.dispRect.memP p) := by
  unfold updateStep
  split
  next hz =>
    constructor
    · intro h
      exact Or.inl h
    · rintro (h | h)
      · exact h
      · exact absurd h.1 ((Rect.clip_size_zero_iff r w.bgRect).mp hz p)
  next hz =>
    have hbl : blitRect w (r.clip w.bgRect).size (r.clip w.bgRect).topleft =
        (r.clip w.bgRect).clip w.dispRect := rfl
    split <;>
    · simp only [hbl, List.mem_append, List.mem_singleton]
      constructor
      · rintro ⟨x, hx | hx, hm⟩
        · exact Or.inl ⟨x, hx, hm⟩
        · subst hx
          rw [Rect.memP_clip] at hm
          exact Or.inr hm
      · rintro (⟨x, hx, hm⟩ | h)
        · exact ⟨x, Or.inl hx, hm⟩
        · exact ⟨_, Or.inr rfl, (Rect.memP_clip _ _ p).mpr h⟩

theorem exists_memP_append (l1 l2 : List Rect) (p : Int × Int) :
    (∃ x ∈ l1 ++ l2, Rect.memP x p) ↔
      (∃ x ∈ l1, Rect.memP x p) ∨ ∃ x ∈ l2, Rect.memP x p := by
  simp only [List.mem_append]
  constructor
  · rintro ⟨x, hx | hx, hm⟩
    · exact Or.inl ⟨x, hx, hm⟩
    · exact Or.inr ⟨x, hx, hm⟩
  · rintro (⟨x, hx, hm⟩ | ⟨x, hx, hm⟩)
    · exact ⟨x, Or.inl hx, hm⟩
    · exact ⟨x, Or.inr hx, hm⟩

theorem exists_memP_singleton (r : Rect) (p : Int × Int) :
    (∃ x ∈ [r], Rect.memP x p) ↔ r.memP p := by
  simp

/-- C1: a moved actor, alone in a world whose background has the size
of the display (as the constructor guarantees), is repainted, and the
rectangles returned cover exactly the union of the previous rectangle
and of the rendered image at the new position, each clipped to the
background bounds — nothing outside that union, hence never the full
screen unless the union is. -/
theorem actor_update_damage_lone (rot : RotSize) (w : WorldSt) (a : ActorSt)
    (pr : Rect) (hbgw : w.bgW = w.width) (hbgh : w.bgH = w.height)
    (hpr : a.prev_rect = some pr)
    (hmv : ((a.x * w.cell_size + a.x_offset,
      a.y * w.cell_size + a.y_offset) : Int × Int) ≠ pr.topleft) :
    ∃ areas, (Actor._update rot w [] [] a).2 = some areas ∧
      ∀ p : Int × Int,
        (∃ r ∈ areas, r.memP p) ↔
          ((pr.clip w.bgRect).memP p ∨
            ((⟨a.x * w.cell_size + a.x_offset, a.y * w.cell_size + a.y_offset,
              (rot a.img.w a.img.h a.rotation).1,
              (rot a.img.w a.img.h a.rotation).2⟩ : Rect).clip w.bgRect).memP
              p) := by
  have hdisp : w.dispRect = w.bgRect := by
    unfold WorldSt.dispRect WorldSt.bgRect
    rw [hbgw, hbgh]
  unfold Actor._update
  simp only [Actor.render, hpr, List.isEmpty_nil, Bool.and_self]
  split
  next hc =>
    refine ⟨_, rfl, ?_⟩
    intro p
    rw [List.foldl_cons, List.foldl_cons, List.foldl_nil,
      snd_updateStep_lone, snd_updateStep_lone]
    simp only [List.map_nil, List.append_nil, List.nil_append]
    rw [exists_memP_append, exists_memP_singleton,
      exists_memP_updateStep, exists_memP_updateStep]
    simp only [List.not_mem_nil, false_and, exists_false, false_or,
      Rect.memP_clip, memP_blitRect, Rect.topleft, hdisp]
    tauto
  next hc =>
    exact absurd (by simp [hmv]) hc

/-- Witness for C1 at the end-to-end scenario of the spec: 200 by 200
world, 10 by 10 actor moved from (50, 50) to (60, 50). -/
theorem actor_update_damage_lone_witness :
    world200.bgW = world200.width ∧ world200.bgH = world200.height ∧
      actorMoved.prev_rect = some ⟨50, 50, 10, 10⟩ ∧
      ((actorMoved.x * world200.cell_size + actorMoved.x_offset,
        actorMoved.y * world200.cell_size + actorMoved.y_offset) : Int × Int) ≠
        Rect.topleft ⟨50, 50, 10, 10⟩ ∧
      ∃ areas, (Actor._update rotId world200 [] [] actorMoved).2 = some areas ∧
        ∀ p : Int × Int,
          (∃ r ∈ areas, r.memP p) ↔
            (((⟨50, 50, 10, 10⟩ : Rect).clip world200.bgRect).memP p ∨
              ((⟨actorMoved.x * world200.cell_size + actorMoved.x_offset,
                actorMoved.y * world200.cell_size + actorMoved.y_offset,
                (rotId actorMoved.img.w actorMoved.img.h actorMoved.rotation).1,
                (rotId actorMoved.img.w actorMoved.img.h
                  actorMoved.rotation).2⟩ : Rect).clip world200.bgRect).memP
                p) :=
  ⟨rfl, rfl, rfl, by decide,
    actor_update_damage_lone rotId world200 actorMoved ⟨50, 50, 10, 10⟩
      rfl rfl rfl (by decide)⟩

/-- C6 counterexample for `clicked()` with no button argument: press
while hovering (frame 1), move off before release (frames 2, 3), then
merely hover again without any press (frame 4) — the fourth call
reports a click, because the final branch of the no-argument variant
never clears the latch.  The claim promises no true on any subsequent
frame. -/
theorem clicked_latch_cex :
    (runClicked actor0
      [(true, true), (false, true), (false, false), (true, false)]).2 =
      [false, false, false, true] := by
  decide

/-- Unlatched actor, frames without a press: `clicked()` reports
nothing and the latch stays clear. -/
theorem clicked_no_press (a : ActorSt) (frames : List (Bool × Bool))
    (hl : a.trigger_on_relief = false) (hf : ∀ f ∈ frames, f.2 = false) :
    (runClicked a frames).2 = frames.map (fun _ => false) ∧
      (runClicked a frames).1.trigger_on_relief = false := by
  induction frames generalizing a with
  | nil => exact ⟨rfl, hl⟩
  | cons f fs ih =>
    have hf2 : f.2 = false := hf f (List.mem_cons_self f fs)
    have hstep : Actor.clicked a f.1 f.2 = (a, false) := by
      rw [hf2]
      unfold Actor.clicked
      simp [hl]
    rw [runClicked, hstep]
    have := ih a hl (fun g hg => hf g (List.mem_cons_of_mem f hg))
    exact ⟨by rw [List.map_cons, this.1], this.2⟩

/-- Unlatched actor, frames without a press: `clicked(button)` reports
nothing and the latch stays clear. -/
theorem clicked_button_no_press (a : ActorSt) (frames : List (Bool × Bool))
    (hl : a.trigger_on_relief = false) (hf : ∀ f ∈ frames, f.2 = false) :
    (runClickedButton a frames).2 = frames.map (fun _ => false) ∧
      (runClickedButton a frames).1.trigger_on_relief = false := by
  induction frames generalizing a with
  | nil => exact ⟨rfl, hl⟩
  | cons f fs ih =>
    have hf2 : f.2 = false := hf f (List.mem_cons_self f fs)
    have hstep : (Actor.clicked_button a f.1 f.2).1.trigger_on_relief = false ∧
        (Actor.clicked_button a f.1 f.2).2 = false := by
      rw [hf2]
      unfold Actor.clicked_button
      simp [hl]
    have := ih (Actor.clicked_button a f.1 f.2).1 hstep.1
      (fun g hg => hf g (List.mem_cons_of_mem f hg))
    rw [runClickedButton]
    exact ⟨by rw [List.map_cons, this.1, hstep.2], this.2⟩

/-- C6 amended: the round trip holds — press while hovering, release
while hovering, then any press-free frames yield exactly one true, on
the release frame.  But for `clicked()` with no button argument, moving
off the actor before release does not clear the latch: the latch
survives off-actor frames, and the click is reported on the first later
frame that hovers the actor without a press.  The promised behaviour —
no true after moving off — holds for the explicit-button variant
`clicked(button)`, whose final branch clears the latch. -/
theorem clicked_latch_amended :
    (∀ (a : ActorSt) (rest : List (Bool × Bool)),
        a.trigger_on_relief = false → (∀ f ∈ rest, f.2 = false) →
        (runClicked a ((true, true) :: (true, false) :: rest)).2 =
          false :: true :: rest.map (fun _ => false))
    ∧ (∀ (a : ActorSt) (b : Bool) (rest : List (Bool × Bool)),
        a.trigger_on_relief = false → (∀ f ∈ rest, f.2 = false) →
        (runClickedButton a ((true, true) :: (false, b) :: rest)).2 =
          false :: false :: rest.map (fun _ => false))
    ∧ (∀ (a : ActorSt) (pressed : Bool),
        (Actor.clicked a false pressed).1.trigger_on_relief =
          a.trigger_on_relief ∧ (Actor.clicked a false pressed).2 = false)
    ∧ (∀ a : ActorSt, a.trigger_on_relief = true →
        (Actor.clicked a true false).2 = true) := by
  refine ⟨?_, ?_, ?_, ?_⟩
  · intro a rest hl hf
    rw [runClicked]
    have h1 : Actor.clicked a true true =
        ({ a with trigger_on_relief := true }, false) := by
      unfold Actor.clicked
      simp
    rw [h1, runClicked]
    have h2 : Actor.clicked { a with trigger_on_relief := true } true false =
        ({ a with trigger_on_relief := false }, true) := by
      unfold Actor.clicked
      simp
    rw [h2]
    have h3 := clicked_no_press { a with trigger_on_relief := false } rest
      rfl hf
    rw [h3.1]
  · intro a b rest hl hf
    rw [runClickedButton]
    have h1 : Actor.clicked_button a true true =
        ({ a with trigger_on_relief := true }, false) := by
      unfold Actor.clicked_button
      simp
    rw [h1, runClickedButton]
    have h2 : Actor.clicked_button { a with trigger_on_relief := true }
        false b = ({ a with trigger_on_relief := false }, false) := by
      unfold Actor.clicked_button
      simp
    rw [h2]
    have h3 := clicked_button_no_press { a with trigger_on_relief := false }
      rest rfl hf
    rw [h3.1]
  · intro a pressed
    unfold Actor.clicked
    simp
  · intro a ha
    unfold Actor.clicked
    simp [ha]

/-- Witness for the amended C6 at a concrete input: a press-and-release
over the actor followed by one idle hover frame reports exactly one
click. -/
theorem clicked_latch_amended_witness :
    actor0.trigger_on_relief = false ∧
      (∀ f ∈ ([(true, false)] : List (Bool × Bool)), f.2 = false) ∧
      (runClicked actor0 [(true, true), (true, false), (true, false)]).2 =
        [false, true, false] :=
  ⟨rfl, by decide,
    clicked_latch_amended.1 actor0 [(true, false)] rfl (by decide)⟩

/-! ## Registry lemmas -/

theorem remove1_of_absent (r : Registry) (o : Obj)
    (h : ∀ b ∈ r, o ∉ b.2) : World.remove1 r o = r := by
  unfold World.remove1
  have h2 : ∀ b ∈ r,
      (if b.1 = o.ty then (b.1, b.2.erase o) else b) = id b := by
    intro b hb
    simp only [id]
    by_cases hc : b.1 = o.ty
    · rw [if_pos hc, List.erase_of_not_mem (h b hb)]
    · rw [if_neg hc]
  rw [List.map_congr_left h2, List.map_id]

theorem remove_of_absent (r : Registry) (objs : List Obj)
    (h : ∀ a ∈ objs, ∀ b ∈ r, a ∉ b.2) : World.remove r objs = r := by
  induction objs with
  | nil => rfl
  | cons o os ih =>
    unfold World.remove at ih ⊢
    rw [List.foldl_cons,
      remove1_of_absent r o (h o (List.mem_cons_self o os))]
    exact ih fun a ha b hb => h a (List.mem_cons_of_mem o ha) b hb

theorem keysOf_remove1 (r : Registry) (o : Obj) :
    keysOf (World.remove1 r o) = keysOf r := by
  unfold World.remove1 keysOf
  rw [List.map_map]
  apply List.map_congr_left
  intro b hb
  by_cases hc : b.1 = o.ty <;> simp [hc]

theorem keysOf_remove (r : Registry) (objs : List Obj) :
    keysOf (World.remove r objs) = keysOf r := by
  induction objs generalizing r with
  | nil => rfl
  | cons o os ih =>
    unfold World.remove at ih ⊢
    rw [List.foldl_cons, ih (World.remove1 r o), keysOf_remove1]

theorem inv_remove1 (r : Registry) (o : Obj) (h : RegInv r) :
    RegInv (World.remove1 r o) := by
  obtain ⟨h1, h2, h3⟩ := h
  refine ⟨?_, ?_, ?_⟩
  · intro b hb a ha
    rw [World.remove1, List.mem_map] at hb
    obtain ⟨b0, hb0, rfl⟩ := hb
    by_cases hc : b0.1 = o.ty
    · rw [if_pos hc] at ha ⊢
      exact h1 b0 hb0 a (List.mem_of_mem_erase ha)
    · rw [if_neg hc] at ha ⊢
      exact h1 b0 hb0 a ha
  · rw [keysOf_remove1]
    exact h2
  · intro b hb
    rw [World.remove1, List.mem_map] at hb
    obtain ⟨b0, hb0, rfl⟩ := hb
    by_cases hc : b0.1 = o.ty
    · rw [if_pos hc]
      exact (h3 b0 hb0).erase o
    · rw [if_neg hc]
      exact h3 b0 hb0

theorem remove_eq_filter (objs : List Obj) (r : Registry) (hinv : RegInv r) :
    World.remove r objs =
      r.map (fun b => (b.1, b.2.filter (fun a => decide (a ∉ objs)))) := by
  induction objs generalizing r with
  | nil =>
    have h2 : ∀ b ∈ r,
        (b.1, b.2.filter (fun a => decide (a ∉ ([] : List Obj)))) = id b := by
      intro b hb
      simp
    rw [List.map_congr_left h2, List.map_id]
    rfl
  | cons o os ih =>
    obtain ⟨h1, h2, h3⟩ := hinv
    have hstep : World.remove r (o :: os) =
        World.remove (World.remove1 r o) os := rfl
    rw [hstep, ih (World.remove1 r o) (inv_remove1 r o ⟨h1, h2, h3⟩)]
    unfold World.remove1
    rw [List.map_map]
    apply List.map_congr_left
    intro b hb
    by_cases hc : b.1 = o.ty
    · simp only [Function.comp, if_pos hc]
      rw [(h3 b hb).erase_eq_filter o, List.filter_filter]
      congr 1
      apply List.filter_congr
      intro a _
      simp only [List.mem_cons, not_or, Bool.decide_and, decide_not, bne]
      rw [Bool.and_comm]
      rfl
    · simp only [Function.comp, if_neg hc]
      congr 1
      apply List.filter_congr
      intro a ha
      have hne : a ≠ o := by
        intro hao
        subst hao
        exact hc (h1 b hb a ha ▸ rfl)
      simp [List.mem_cons, hne]

/-- C10: `World.remove` never raises — discarding from the set the
dictionary lookup returns is total, also when no bucket of the runtime
type of the actor exists, which the model reflects as a total function.
It is a no-op when the given actors are absent, and in general it
removes exactly the given actors that are present, keeping every bucket
in place (the key sequence is untouched) and every other actor. -/
theorem remove_total_noop :
    (∀ (r : Registry) (objs : List Obj),
        (∀ a ∈ objs, ∀ b ∈ r, a ∉ b.2) → World.remove r objs = r)
    ∧ (∀ (r : Registry) (objs : List Obj), RegInv r →
        World.remove r objs =
          r.map (fun b => (b.1, b.2.filter (fun a => decide (a ∉ objs)))))
    ∧ (∀ (r : Registry) (objs : List Obj),
        keysOf (World.remove r objs) = keysOf r) :=
  ⟨remove_of_absent, fun r objs h => remove_eq_filter objs r h,
    keysOf_remove⟩

/-- Witness for C10 at a concrete input: removing an actor whose type
has no bucket leaves the registry untouched. -/
theorem remove_total_noop_witness :
    (∀ a ∈ ([⟨1, 7⟩] : List Obj), ∀ b ∈ ([(0, [⟨0, 3⟩])] : Registry),
        a ∉ b.2) ∧
      World.remove [(0, [⟨0, 3⟩])] [⟨1, 7⟩] = [(0, [⟨0, 3⟩])] :=
  ⟨by decide, remove_total_noop.1 [(0, [⟨0, 3⟩])] [⟨1, 7⟩] (by decide)⟩

theorem keysOf_add1 (r : Registry) (o : Obj) :
    keysOf (World.add1 r o) = keysOf r ∨
      keysOf (World.add1 r o) = keysOf r ++ [o.ty] := by
  unfold World.add1
  split
  · left
    unfold keysOf
    rw [List.map_map]
    apply List.map_congr_left
    intro b hb
    by_cases hc : b.1 = o.ty <;> simp [hc]
  · right
    unfold keysOf
    rw [List.map_append]
    rfl

theorem keysOf_add (r : Registry) (objs : List Obj) :
    ∃ ext, keysOf (World.add r objs) = keysOf r ++ ext := by
  induction objs generalizing r with
  | nil => exact ⟨[], (List.append_nil _).symm⟩
  | cons o os ih =>
    have hstep : World.add r (o :: os) = World.add (World.add1 r o) os := rfl
    obtain ⟨ext, hext⟩ := ih (World.add1 r o)
    rcases keysOf_add1 r o with h | h
    · exact ⟨ext, by rw [hstep, hext, h]⟩
    · exact ⟨[o.ty] ++ ext, by rw [hstep, hext, h, List.append_assoc]⟩

theorem inv_add1 (r : Registry) (o : Obj) (h : RegInv r) :
    RegInv (World.add1 r o) := by
  obtain ⟨h1, h2, h3⟩ := h
  unfold World.add1
  split
  next hc =>
    refine ⟨?_, ?_, ?_⟩
    · intro b hb a ha
      rw [List.mem_map] at hb
      obtain ⟨b0, hb0, rfl⟩ := hb
      by_cases hb1 : b0.1 = o.ty
      · rw [if_pos hb1] at ha ⊢
        unfold bucketAdd at ha
        split at ha
        · exact h1 b0 hb0 a ha
        · rcases List.mem_append.mp ha with h4 | h4
          · exact h1 b0 hb0 a h4
          · rw [List.mem_singleton] at h4
            subst h4
            exact hb1.symm
      · rw [if_neg hb1] at ha ⊢
        exact h1 b0 hb0 a ha
    · have hk : keysOf (r.map
          (fun b => if b.1 = o.ty then (b.1, bucketAdd b.2 o) else b)) =
          keysOf r := by
        unfold keysOf
        rw [List.map_map]
        apply List.map_congr_left
        intro b hb
        by_cases hb1 : b.1 = o.ty <;> simp [hb1]
      rw [hk]
      exact h2
    · intro b hb
      rw [List.mem_map] at hb
      obtain ⟨b0, hb0, rfl⟩ := hb
      by_cases hb1 : b0.1 = o.ty
      · rw [if_pos hb1]
        unfold bucketAdd
        split
        · exact h3 b0 hb0
        next hmem =>
          simp only [List.nodup_append, List.nodup_cons, List.nodup_nil]
          refine ⟨h3 b0 hb0, by simp, ?_⟩
          simp only [List.disjoint_singleton]
          exact hmem
      · rw [if_neg hb1]
        exact h3 b0 hb0
  next hc =>
    have hno : o.ty ∉ keysOf r := by
      intro hmem
      rw [keysOf, List.mem_map] at hmem
      obtain ⟨b, hb, hty⟩ := hmem
      exact hc (List.any_eq_true.mpr ⟨b, hb, by simp [hty]⟩)
    refine ⟨?_, ?_, ?_⟩
    · intro b hb a ha
      rcases List.mem_append.mp hb with h4 | h4
      · exact h1 b h4 a ha
      · rw [List.mem_singleton] at h4
        subst h4
        rw [List.mem_singleton] at ha
        subst ha
        rfl
    · unfold keysOf
      rw [List.map_append]
      simp only [List.map_cons, List.map_nil]
      rw [List.nodup_append]
      refine ⟨h2, by simp, ?_⟩
      intro x hx hmem
      rw [List.mem_singleton] at hmem
      subst hmem
      exact hno hx
    · intro b hb
      rcases List.mem_append.mp hb with h4 | h4
      · exact h3 b h4
      · rw [List.mem_singleton] at h4
        subst h4
        simp

theorem inv_add (r : Registry) (objs : List Obj) (h : RegInv r) :
    RegInv (World.add r objs) := by
  induction objs generalizing r with
  | nil => exact h
  | cons o os ih => exact ih (World.add1 r o) (inv_add1 r o h)

theorem inv_remove (r : Registry) (objs : List Obj) (h : RegInv r) :
    RegInv (World.remove r objs) := by
  induction objs generalizing r with
  | nil => exact h
  | cons o os ih => exact ih (World.remove1 r o) (inv_remove1 r o h)

theorem insertK_perm {α : Type} (key : α → Int) (x : α) (l : List α) :
    (insertK key x l).Perm (x :: l) := by
  induction l with
  | nil => exact List.Perm.refl _
  | cons y ys ih =>
    unfold insertK
    split
    · exact List.Perm.refl _
    · exact (ih.cons y).trans (List.Perm.swap x y ys)

theorem sortK_perm {α : Type} (key : α → Int) (l : List α) :
    (sortK key l).Perm l := by
  suffices h : ∀ (l acc : List α),
      (l.foldl (fun acc x => insertK key x acc) acc).Perm (acc ++ l) by
    have h2 := h l []
    unfold sortK
    simpa using h2
  intro l
  induction l with
  | nil => intro acc; simp
  | cons x xs ih =>
    intro acc
    rw [List.foldl_cons]
    refine (ih (insertK key x acc)).trans ?_
    refine (((insertK_perm key x acc).append_right xs).trans ?_)
    exact List.perm_middle.symm

theorem inv_of_perm (r r' : Registry) (hp : r'.Perm r) (h : RegInv r) :
    RegInv r' := by
  obtain ⟨h1, h2, h3⟩ := h
  refine ⟨?_, ?_, ?_⟩
  · intro b hb a ha
    exact h1 b (hp.mem_iff.mp hb) a ha
  · exact ((hp.map Prod.fst).nodup_iff).mpr h2
  · intro b hb
    exact h3 b (hp.mem_iff.mp hb)

theorem inv_setdefaultKey (r : Registry) (t : Nat) (h : RegInv r) :
    RegInv (setdefaultKey r t) := by
  obtain ⟨h1, h2, h3⟩ := h
  unfold setdefaultKey
  split
  · exact ⟨h1, h2, h3⟩
  next hc =>
    have hno : t ∉ keysOf r := by
      intro hmem
      rw [keysOf, List.mem_map] at hmem
      obtain ⟨b, hb, hty⟩ := hmem
      exact hc (List.any_eq_true.mpr ⟨b, hb, by simp [hty]⟩)
    refine ⟨?_, ?_, ?_⟩
    · intro b hb a ha
      rcases List.mem_append.mp hb with h4 | h4
      · exact h1 b h4 a ha
      · rw [List.mem_singleton] at h4
        subst h4
        simp at ha
    · unfold keysOf
      rw [List.map_append]
      simp only [List.map_cons, List.map_nil]
      rw [List.nodup_append]
      refine ⟨h2, by simp, ?_⟩
      intro x hx hmem
      rw [List.mem_singleton] at hmem
      subst hmem
      exact hno hx
    · intro b hb
      rcases List.mem_append.mp hb with h4 | h4
      · exact h3 b h4
      · rw [List.mem_singleton] at h4
        subst h4
        simp

theorem inv_fold_setdefault (ts : List Nat) (r : Registry) (h : RegInv r) :
    RegInv (ts.foldl setdefaultKey r) := by
  induction ts generalizing r with
  | nil => exact h
  | cons t ts ih => exact ih (setdefaultKey r t) (inv_setdefaultKey r t h)

theorem inv_set_paint_order (ts : List Nat) (r : Registry) (h : RegInv r) :
    RegInv (World.set_paint_order ts r) :=
  inv_of_perm _ _ (sortK_perm _ _)
    (inv_fold_setdefault (firstOccs ts) r h)

theorem inv_empty : RegInv [] := by
  refine ⟨?_, ?_, ?_⟩ <;> simp [keysOf]

theorem inv_applyOps (ops : List WOp) : RegInv (applyOps ops) := by
  suffices h : ∀ (ops : List WOp) (r : Registry), RegInv r →
      RegInv (ops.foldl applyOp r) from h ops [] inv_empty
  intro ops
  induction ops with
  | nil => intro r h; exact h
  | cons op ops ih =>
    intro r h
    rw [List.foldl_cons]
    refine ih (applyOp r op) ?_
    cases op with
    | add objs => exact inv_add r objs h
    | remove objs => exact inv_remove r objs h
    | paint ts => exact inv_set_paint_order ts r h

/-- C8: after any sequence of add, remove and set_paint_order
operations on a fresh world, each actor sits only in buckets keyed by
its runtime type, two buckets holding a common actor are the same
bucket — so an actor is in at most one bucket — and no bucket counts an
actor twice; moreover remove preserves the bucket key sequence exactly,
and add only ever appends new buckets, so the relative ordering of
existing buckets is unchanged by both. -/
theorem registry_invariant (ops : List WOp) :
    (∀ b ∈ applyOps ops, ∀ a ∈ b.2, a.ty = b.1)
    ∧ (∀ b1 ∈ applyOps ops, ∀ b2 ∈ applyOps ops, ∀ a : Obj,
        a ∈ b1.2 → a ∈ b2.2 → b1 = b2)
    ∧ (∀ b ∈ applyOps ops, ∀ a : Obj, b.2.count a ≤ 1)
    ∧ (∀ (r : Registry) (objs : List Obj),
        keysOf (World.remove r objs) = keysOf r)
    ∧ (∀ (r : Registry) (objs : List Obj),
        ∃ ext, keysOf (World.add r objs) = keysOf r ++ ext) := by
  obtain ⟨h1, h2, h3⟩ := inv_applyOps ops
  refine ⟨h1, ?_, ?_, keysOf_remove, keysOf_add⟩
  · intro b1 hb1 b2 hb2 a ha1 ha2
    have hty : b1.1 = b2.1 := by
      rw [← h1 b1 hb1 a ha1, ← h1 b2 hb2 a ha2]
    exact List.inj_on_of_nodup_map h2 hb1 hb2 hty
  · intro b hb a
    exact List.nodup_iff_count_le_one.mp (h3 b hb) a

/-- Witness for C8 at a concrete input: one add operation. -/
theorem registry_invariant_witness :
    ((0, [(⟨0, 5⟩ : Obj)]) ∈ applyOps [WOp.add [⟨0, 5⟩]]) ∧
      (⟨0, 5⟩ : Obj) ∈ [(⟨0, 5⟩ : Obj)] ∧ (⟨0, 5⟩ : Obj).ty = 0 :=
  ⟨by decide, by decide,
    (registry_invariant [WOp.add [⟨0, 5⟩]]).1 (0, [⟨0, 5⟩]) (by decide)
      ⟨0, 5⟩ (by decide)⟩

/-! ## Stable sort lemmas -/

theorem insertK_cons_of_all_lt {α : Type} (key : α → Int) (x : α)
    (l : List α) (h : ∀ y ∈ l, key x < key y) : insertK key x l = x :: l := by
  cases l with
  | nil => rfl
  | cons y ys =>
    unfold insertK
    rw [if_pos (h y (List.mem_cons_self y ys))]

theorem insertK_append_of_ge {α : Type} (key : α → Int) (x : α)
    (u v : List α) (h : ∀ y ∈ u, ¬ key x < key y) :
    insertK key x (u ++ v) = u ++ insertK key x v := by
  induction u with
  | nil => rfl
  | cons y ys ih =>
    rw [List.cons_append]
    rw [show insertK key x (y :: (ys ++ v)) =
      if key x < key y then x :: y :: (ys ++ v)
      else y :: insertK key x (ys ++ v) from rfl]
    rw [if_neg (h y (List.mem_cons_self y ys))]
    rw [ih fun z hz => h z (List.mem_cons_of_mem y hz)]
    rfl

theorem insertK_of_all_ge {α : Type} (key : α → Int) (x : α) (l : List α)
    (h : ∀ y ∈ l, ¬ key x < key y) : insertK key x l = l ++ [x] := by
  induction l with
  | nil => rfl
  | cons y ys ih =>
    unfold insertK
    rw [if_neg (h y (List.mem_cons_self y ys))]
    rw [ih fun z hz => h z (List.mem_cons_of_mem y hz)]
    rfl

theorem sortK_append_singleton {α : Type} (key : α → Int) (l : List α)
    (x : α) : sortK key (l ++ [x]) = insertK key x (sortK key l) := by
  unfold sortK
  rw [List.foldl_append]
  rfl

/-- A stable sort of a list whose keys are all 0, 1 or 2 is the
concatenation of the three key classes, each in original order. -/
theorem sortK_three {α : Type} (key : α → Int) (l : List α)
    (h : ∀ x ∈ l, key x = 0 ∨ key x = 1 ∨ key x = 2) :
    sortK key l = l.filter (fun x => decide (key x = 0)) ++
      l.filter (fun x => decide (key x = 1)) ++
      l.filter (fun x => decide (key x = 2)) := by
  induction l using List.reverseRecOn with
  | nil => rfl
  | append_singleton l x ih =>
    have hl : ∀ y ∈ l, key y = 0 ∨ key y = 1 ∨ key y = 2 :=
      fun y hy => h y (List.mem_append.mpr (Or.inl hy))
    have hx : key x = 0 ∨ key x = 1 ∨ key x = 2 :=
      h x (List.mem_append.mpr (Or.inr (List.mem_singleton_self x)))
    have hm0 : ∀ y ∈ l.filter (fun x => decide (key x = 0)), key y = 0 :=
      fun y hy => of_decide_eq_true (List.mem_filter.mp hy).2
    have hm1 : ∀ y ∈ l.filter (fun x => decide (key x = 1)), key y = 1 :=
      fun y hy => of_decide_eq_true (List.mem_filter.mp hy).2
    have hm2 : ∀ y ∈ l.filter (fun x => decide (key x = 2)), key y = 2 :=
      fun y hy => of_decide_eq_true (List.mem_filter.mp hy).2
    rw [sortK_append_singleton, ih hl,
      List.filter_append, List.filter_append, List.filter_append]
    rcases hx with hx | hx | hx
    · rw [List.append_assoc, insertK_append_of_ge key x _ _
        (fun y hy => by have := hm0 y hy; omega)]
      rw [insertK_cons_of_all_lt key x _ (fun y hy => by
        rcases List.mem_append.mp hy with h2 | h2
        · have := hm1 y h2; omega
        · have := hm2 y h2; omega)]
      simp [hx, List.filter_cons]
    · rw [List.append_assoc, ← List.append_assoc _ _ (List.filter _ l),
        insertK_append_of_ge key x _ _ (fun y hy => by
          rcases List.mem_append.mp hy with h2 | h2
          · have := hm0 y h2; omega
          · have := hm1 y h2; omega)]
      rw [insertK_cons_of_all_lt key x _ (fun y hy => by
        have := hm2 y hy; omega)]
      simp [hx, List.filter_cons]
    · rw [insertK_of_all_ge key x _ (fun y hy => by
        rcases List.mem_append.mp hy with h2 | h2
        · rcases List.mem_append.mp h2 with h3 | h3
          · have := hm0 y h3; omega
          · have := hm1 y h3; omega
        · have := hm2 y h2; omega)]
      simp [hx, List.filter_cons]

theorem pairwise_insertK {α : Type} (key : α → Int) (x : α) (l : List α)
    (h : l.Pairwise (fun a b => key a ≤ key b)) :
    (insertK key x l).Pairwise (fun a b => key a ≤ key b) := by
  induction l with
  | nil => simp [insertK]
  | cons y ys ih =>
    rw [List.pairwise_cons] at h
    unfold insertK
    split
    next hlt =>
      rw [List.pairwise_cons]
      refine ⟨?_, List.pairwise_cons.mpr h⟩
      intro z hz
      rcases List.mem_cons.mp hz with rfl | hz2
      · omega
      · have := h.1 z hz2
        omega
    next hge =>
      rw [List.pairwise_cons]
      refine ⟨?_, ih h.2⟩
      intro z hz
      have hz2 := (insertK_perm key x ys).mem_iff.mp hz
      rcases List.mem_cons.mp hz2 with rfl | hz3
      · omega
      · exact h.1 z hz3

theorem pairwise_sortK {α : Type} (key : α → Int) (l : List α) :
    (sortK key l).Pairwise (fun a b => key a ≤ key b) := by
  suffices h : ∀ (l acc : List α),
      acc.Pairwise (fun a b => key a ≤ key b) →
      (l.foldl (fun acc x => insertK key x acc) acc).Pairwise
        (fun a b => key a ≤ key b) from h l [] (by simp)
  intro l
  induction l with
  | nil => intro acc h; exact h
  | cons x xs ih =>
    intro acc h
    rw [List.foldl_cons]
    exact ih _ (pairwise_insertK key x acc h)

theorem sortK_of_pairwise {α : Type} (key : α → Int) (l : List α)
    (h : l.Pairwise (fun a b => key a ≤ key b)) : sortK key l = l := by
  suffices haux : ∀ (l acc : List α),
      l.Pairwise (fun a b => key a ≤ key b) →
      (∀ y ∈ acc, ∀ x ∈ l, key y ≤ key x) →
      l.foldl (fun acc x => insertK key x acc) acc = acc ++ l by
    have h2 := haux l [] h (by simp)
    unfold sortK
    simpa using h2
  intro l
  induction l with
  | nil => intro acc _ _; simp
  | cons x xs ih =>
    intro acc hp hge
    rw [List.pairwise_cons] at hp
    rw [List.foldl_cons, insertK_of_all_ge key x acc
      (fun y hy => by
        have := hge y hy x (List.mem_cons_self x xs); omega)]
    rw [ih (acc ++ [x]) hp.2 (fun y hy z hz => by
      rcases List.mem_append.mp hy with h2 | h2
      · exact hge y h2 z (List.mem_cons_of_mem x hz)
      · rw [List.mem_singleton] at h2
        subst h2
        exact hp.1 z hz)]
    rw [List.append_assoc]
    rfl

/-! ## setdefault and paint-order lemmas -/

theorem any_setdefaultKey (r : Registry) (t u : Nat)
    (h : r.any (fun b => b.1 = u) = true) :
    (setdefaultKey r t).any (fun b => b.1 = u) = true := by
  unfold setdefaultKey
  split
  · exact h
  · simp [List.any_append, h]

theorem any_fold_setdefault_of (ts : List Nat) (r : Registry) (u : Nat)
    (h : r.any (fun b => b.1 = u) = true) :
    (ts.foldl setdefaultKey r).any (fun b => b.1 = u) = true := by
  induction ts generalizing r with
  | nil => exact h
  | cons t ts ih => exact ih _ (any_setdefaultKey r t u h)

theorem any_setdefaultKey_self (r : Registry) (t : Nat) :
    (setdefaultKey r t).any (fun b => b.1 = t) = true := by
  unfold setdefaultKey
  split
  next hc => exact hc
  next hc => simp [List.any_append]

theorem any_fold_setdefault_mem (ts : List Nat) (r : Registry) (u : Nat)
    (hu : u ∈ ts) :
    (ts.foldl setdefaultKey r).any (fun b => b.1 = u) = true := by
  induction ts generalizing r with
  | nil => cases hu
  | cons t ts ih =>
    rw [List.foldl_cons]
    rcases List.mem_cons.mp hu with rfl | hu2
    · exact any_fold_setdefault_of ts _ u (any_setdefaultKey_self r u)
    · exact ih _ hu2

theorem fold_setdefault_of_all (ts : List Nat) (r : Registry)
    (h : ∀ t ∈ ts, r.any (fun b => b.1 = t) = true) :
    ts.foldl setdefaultKey r = r := by
  induction ts with
  | nil => rfl
  | cons t ts ih =>
    rw [List.foldl_cons]
    have h1 : setdefaultKey r t = r := by
      unfold setdefaultKey
      rw [if_pos (h t (List.mem_cons_self t ts))]
    rw [h1]
    exact ih fun u hu => h u (List.mem_cons_of_mem t hu)

theorem any_of_perm (r1 r2 : Registry) (hp : List.Perm r1 r2)
    (f : Nat × List Obj → Bool) : r1.any f = r2.any f := by
  cases h1 : r1.any f <;> cases h2 : r2.any f
  · rfl
  · obtain ⟨b, hb, hf⟩ := List.any_eq_true.mp h2
    rw [List.any_eq_false] at h1
    exact absurd hf (by simp [h1 b (hp.mem_iff.mpr hb)])
  · obtain ⟨b, hb, hf⟩ := List.any_eq_true.mp h1
    rw [List.any_eq_false] at h2
    exact absurd hf (by simp [h2 b (hp.mem_iff.mp hb)])
  · rfl

theorem mem_setdefaultKey (r : Registry) (t : Nat) (b : Nat × List Obj)
    (h : b ∈ r) : b ∈ setdefaultKey r t := by
  unfold setdefaultKey
  split
  · exact h
  · exact List.mem_append.mpr (Or.inl h)

theorem mem_fold_setdefault (ts : List Nat) (r : Registry)
    (b : Nat × List Obj) (h : b ∈ r) : b ∈ ts.foldl setdefaultKey r := by
  induction ts generalizing r with
  | nil => exact h
  | cons t ts ih => exact ih _ (mem_setdefaultKey r t b h)

/-- A second identical set_paint_order call changes nothing: all
mentioned types already have buckets, and a stable sort of a sorted
list is the identity. -/
theorem set_paint_order_idem (ts : List Nat) (r : Registry) :
    World.set_paint_order ts (World.set_paint_order ts r) =
      World.set_paint_order ts r := by
  unfold World.set_paint_order
  have hall : ∀ t ∈ firstOccs ts,
      (sortK (fun b => orderKey ts b.1)
        ((firstOccs ts).foldl setdefaultKey r)).any
          (fun b => b.1 = t) = true := by
    intro t ht
    rw [any_of_perm _ _ (sortK_perm (fun b => orderKey ts b.1) _)]
    exact any_fold_setdefault_mem (firstOccs ts) r t ht
  rw [fold_setdefault_of_all _ _ hall]
  exact sortK_of_pairwise _ _ (pairwise_sortK _ _)

/-- set_paint_order is total: every bucket survives the call. -/
theorem set_paint_order_total (ts : List Nat) (r : Registry)
    (b : Nat × List Obj) (h : b ∈ r) : b ∈ World.set_paint_order ts r := by
  unfold World.set_paint_order
  exact (sortK_perm _ _).mem_iff.mpr
    (mem_fold_setdefault (firstOccs ts) r b h)

/-! ## Typed-add lemmas -/

theorem mem_foldl_bucketAdd (l s : List Obj) (o : Obj)
    (h : o ∈ l.foldl bucketAdd s) : o ∈ s ∨ o ∈ l := by
  induction l generalizing s with
  | nil => exact Or.inl h
  | cons x xt ih =>
    rw [List.foldl_cons] at h
    rcases ih _ h with h2 | h2
    · unfold bucketAdd at h2
      split at h2
      · exact Or.inl h2
      · rcases List.mem_append.mp h2 with h3 | h3
        · exact Or.inl h3
        · rw [List.mem_singleton] at h3
          subst h3
          exact Or.inr (List.mem_cons_self o xt)
    · exact Or.inr (List.mem_cons_of_mem x h2)

theorem add_typed_last (t : Nat) (xs : List Obj) (r : Registry)
    (s : List Obj) (hty : ∀ x ∈ xs, x.ty = t) (habs : ∀ b ∈ r, b.1 ≠ t) :
    World.add (r ++ [(t, s)]) xs = r ++ [(t, xs.foldl bucketAdd s)] := by
  induction xs generalizing s with
  | nil => rfl
  | cons x xt ih =>
    have hxt : x.ty = t := hty x (List.mem_cons_self x xt)
    have hstep : World.add1 (r ++ [(t, s)]) x = r ++ [(t, bucketAdd s x)] := by
      unfold World.add1
      rw [if_pos (List.any_eq_true.mpr
        ⟨(t, s), List.mem_append.mpr (Or.inr (List.mem_singleton_self _)),
          by simp [hxt]⟩)]
      rw [List.map_append]
      have hmr : ∀ b ∈ r,
          (if b.1 = x.ty then (b.1, bucketAdd b.2 x) else b) = id b := by
        intro b hb
        rw [if_neg fun he => habs b hb (he.trans hxt)]
        rfl
      rw [List.map_congr_left hmr, List.map_id]
      simp [hxt]
    show World.add (World.add1 (r ++ [(t, s)]) x) xt = _
    rw [hstep, ih (bucketAdd s x) fun y hy => hty y (List.mem_cons_of_mem x hy)]
    rfl

theorem add_typed_fresh (t : Nat) (xs : List Obj) (r : Registry)
    (hty : ∀ x ∈ xs, x.ty = t) (habs : ∀ b ∈ r, b.1 ≠ t) :
    World.add r xs =
      r ++ if xs.isEmpty then [] else [(t, xs.foldl bucketAdd [])] := by
  cases xs with
  | nil => simp [World.add]
  | cons x xt =>
    have hxt : x.ty = t := hty x (List.mem_cons_self x xt)
    have hstep : World.add1 r x = r ++ [(t, [x])] := by
      unfold World.add1
      rw [if_neg fun hany => by
        obtain ⟨b, hb, hf⟩ := List.any_eq_true.mp hany
        rw [decide_eq_true_eq] at hf
        exact habs b hb (hf.trans hxt)]
      rw [hxt]
    show World.add (World.add1 r x) xt = _
    rw [hstep, add_typed_last t xt r [x]
      (fun y hy => hty y (List.mem_cons_of_mem x hy)) habs]
    simp [bucketAdd]

/-! ## orderKey computations for three distinct types -/

theorem orderKey_CAB_C (A B C : Nat) (hAC : A ≠ C) (hBC : B ≠ C) :
    orderKey [C, A, B] C = 0 := by
  have henum : ([C, A, B] : List Nat).enum = [(0, C), (1, A), (2, B)] := rfl
  unfold orderKey lastIdx
  rw [henum]
  simp [List.filter, hAC, hBC]

theorem orderKey_CAB_A (A B C : Nat) (hAB : A ≠ B) (hAC : A ≠ C) :
    orderKey [C, A, B] A = 1 := by
  have henum : ([C, A, B] : List Nat).enum = [(0, C), (1, A), (2, B)] := rfl
  unfold orderKey lastIdx
  rw [henum]
  simp [List.filter, Ne.symm hAC, Ne.symm hAB]

theorem orderKey_CAB_B (A B C : Nat) (hAB : A ≠ B) (hBC : B ≠ C) :
    orderKey [C, A, B] B = 2 := by
  have henum : ([C, A, B] : List Nat).enum = [(0, C), (1, A), (2, B)] := rfl
  unfold orderKey lastIdx
  rw [henum]
  simp [List.filter, Ne.symm hBC, hAB]

/-- C4: in a world where actors of distinct types A, B and C were added
in that order, `set_paint_order(C, A, B)` reorders the buckets so that
`get_objects()` flattens to all the C actors, then all the A actors,
then all the B actors — each group in bucket iteration order, and any
of the three groups may be empty; every actor of a group has its
type; and in general set_paint_order is idempotent and total: a second
identical call changes nothing and every existing bucket remains
present after a call. -/
theorem paint_order_determinism (A B C : Nat) (la lb lc : List Obj)
    (hAB : A ≠ B) (hAC : A ≠ C) (hBC : B ≠ C)
    (hla : ∀ x ∈ la, x.ty = A) (hlb : ∀ x ∈ lb, x.ty = B)
    (hlc : ∀ x ∈ lc, x.ty = C) :
    (World.get_objects (World.set_paint_order [C, A, B]
        (World.add (World.add (World.add [] la) lb) lc)) =
      lc.foldl bucketAdd [] ++ la.foldl bucketAdd [] ++
        lb.foldl bucketAdd [])
    ∧ (∀ o ∈ lc.foldl bucketAdd [], o.ty = C)
    ∧ (∀ o ∈ la.foldl bucketAdd [], o.ty = A)
    ∧ (∀ o ∈ lb.foldl bucketAdd [], o.ty = B)
    ∧ (∀ (ts : List Nat) (r : Registry),
        World.set_paint_order ts (World.set_paint_order ts r) =
          World.set_paint_order ts r)
    ∧ (∀ (ts : List Nat) (r : Registry) (b : Nat × List Obj), b ∈ r →
        b ∈ World.set_paint_order ts r) := by
  have habsB : ∀ b ∈ (if la.isEmpty then ([] : Registry)
      else [(A, la.foldl bucketAdd [])]), b.1 ≠ B := by
    intro b hb
    split at hb
    · cases hb
    · rw [List.mem_singleton] at hb
      subst hb
      exact hAB
  have habsC : ∀ b ∈ ((if la.isEmpty then ([] : Registry)
      else [(A, la.foldl bucketAdd [])]) ++
      (if lb.isEmpty then ([] : Registry)
      else [(B, lb.foldl bucketAdd [])])), b.1 ≠ C := by
    intro b hb
    rcases List.mem_append.mp hb with hb | hb <;> split at hb
    · cases hb
    · rw [List.mem_singleton] at hb
      subst hb
      exact hAC
    · cases hb
    · rw [List.mem_singleton] at hb
      subst hb
      exact hBC
  have hreg : World.add (World.add (World.add [] la) lb) lc =
      (if la.isEmpty then ([] : Registry)
        else [(A, la.foldl bucketAdd [])]) ++
      (if lb.isEmpty then ([] : Registry)
        else [(B, lb.foldl bucketAdd [])]) ++
      (if lc.isEmpty then ([] : Registry)
        else [(C, lc.foldl bucketAdd [])]) := by
    rw [add_typed_fresh A la [] hla (by intro b hb; cases hb),
      List.nil_append,
      add_typed_fresh B lb _ hlb habsB,
      add_typed_fresh C lc _ hlc habsC]
  have hFO : firstOccs [C, A, B] = [C, A, B] := by
    simp [firstOccs, hAB, hAC, hBC, Ne.symm hAB, Ne.symm hAC, Ne.symm hBC]
  have okC := orderKey_CAB_C A B C hAC hBC
  have okA := orderKey_CAB_A A B C hAB hAC
  have okB := orderKey_CAB_B A B C hAB hBC
  refine ⟨?_, ?_, ?_, ?_, set_paint_order_idem, set_paint_order_total⟩
  · unfold World.set_paint_order
    rw [hFO, hreg]
    rcases la with _ | ⟨a0, atl⟩ <;> rcases lb with _ | ⟨b0, btl⟩ <;>
      rcases lc with _ | ⟨c0, ctl⟩ <;>
      simp [setdefaultKey, sortK, insertK, World.get_objects,
        okA, okB, okC, hAB, hAC, hBC, Ne.symm hAB, Ne.symm hAC, Ne.symm hBC,
        List.any_cons, List.any_nil]
  · intro o ho
    rcases mem_foldl_bucketAdd lc [] o ho with h | h
    · cases h
    · exact hlc o h
  · intro o ho
    rcases mem_foldl_bucketAdd la [] o ho with h | h
    · cases h
    · exact hla o h
  · intro o ho
    rcases mem_foldl_bucketAdd lb [] o ho with h | h
    · cases h
    · exact hlb o h

/-- Witness for C2 at a concrete input: a clean, already drawn actor is
not repainted, and the no-update call returns the state unchanged. -/
theorem actor_update_trigger_iff_witness :
    (Actor._update rotId world200 [] [] actorStill).2 = none ∧
      (Actor._update rotId world200 [] [] actorStill).1 = actorStill :=
  ⟨by decide,
    (actor_update_trigger_iff rotId world200 [] [] actorStill).2 (by decide)⟩

/-- Witness for C4 at a concrete input: types 0, 1, 2 with two actors
of type 0, one of type 1 and none of type 2; after
set_paint_order(2, 0, 1) the flattened objects list the (empty) type 2
group, then type 0, then type 1. -/
theorem paint_order_determinism_witness :
    ((0 : Nat) ≠ 1 ∧ (0 : Nat) ≠ 2 ∧ (1 : Nat) ≠ 2 ∧
      (∀ x ∈ ([⟨0, 10⟩, ⟨0, 11⟩] : List Obj), x.ty = 0) ∧
      (∀ x ∈ ([⟨1, 20⟩] : List Obj), x.ty = 1) ∧
      (∀ x ∈ ([] : List Obj), x.ty = 2)) ∧
      World.get_objects (World.set_paint_order [2, 0, 1]
        (World.add (World.add (World.add [] [⟨0, 10⟩, ⟨0, 11⟩]) [⟨1, 20⟩])
          [])) =
        ([] : List Obj).foldl bucketAdd [] ++
          ([⟨0, 10⟩, ⟨0, 11⟩] : List Obj).foldl bucketAdd [] ++
          ([⟨1, 20⟩] : List Obj).foldl bucketAdd [] :=
  ⟨⟨by decide, by decide, by decide, by decide, by decide, by decide⟩,
    (paint_order_determinism 0 1 2 [⟨0, 10⟩, ⟨0, 11⟩] [⟨1, 20⟩] []
      (by decide) (by decide) (by decide)
      (by decide) (by decide) (by decide)).1⟩

end Pyfoot
